import Mathlib

/-!
Verification of the `@deb/command` CLI parsing engine.

This file gives a shallow embedding of the data model and
operations, translated from the TypeScript sources:

* `src/helpers/utils.ts`       — token classifiers, `kebabToCamelCase`,
                                 `handlerVariadic`
* `src/helpers/parse/option.ts`   — `parseCommandOption`
* `src/helpers/parse/argument.ts` — `parseCommandArgument`
* `src/helpers/parse/index.ts`    — `parseRuntime` (scan loop + post-scan
                                 validation, `validateChoices`)
* `src/helpers/validate/*`     — declaration validators
* `src/helpers/runner.ts`      — the dispatch runner and its module-level
                                 accumulator state

JavaScript objects holding `string | string[] | boolean | undefined`
values are modelled by association lists over an explicit `Value` type
(an `undef` constructor models the JavaScript `undefined`, kept distinct
from `null`, which the source compares against with `===`).  JavaScript
truthiness is modelled explicitly.  The unbounded `while` loop of
`parseRuntime` and the recursive tree walks are modelled with explicit
fuel; fuel-stability theorems show the fuel is an embedding device only.
-/

namespace Command

/-- Values stored in the `args` / `options` result maps.  The JavaScript
`undefined` is `Value.undef` (distinct from the absence of the key). -/
inductive Value : Type where
  | bool (b : Bool)
  | str (s : String)
  | list (xs : List String)
  | undef
  deriving DecidableEq, Repr

/-- JavaScript truthiness of a `Value`: `false`, the empty string and
`undefined` are falsy; every array (even `[]`) is truthy. -/
def Value.truthy : Value → Bool
  | .bool b => b
  | .str s => s ≠ ""
  | .list _ => true
  | .undef => false

/-- `default` fields hold a string or (for variadic kinds) a string list. -/
inductive DefVal : Type where
  | str (s : String)
  | list (xs : List String)
  deriving DecidableEq, Repr

/-- JavaScript truthiness of a declared default value. -/
def DefVal.truthy : DefVal → Bool
  | .str s => s ≠ ""
  | .list _ => true

/-- Truthiness of an optional `default` field (`undefined` is falsy). -/
def defTruthy : Option DefVal → Bool
  | none => false
  | some d => d.truthy

/-- Coerce a declared default into a result value. -/
def DefVal.toValue : DefVal → Value
  | .str s => .str s
  | .list xs => .list xs

/-- `${d}` template rendering: an array joins its elements with `,`. -/
def DefVal.text : DefVal → String
  | .str s => s
  | .list xs => String.intercalate (",") xs

/-- The option kinds of `CommandOptionKind` (src/core/types.ts). -/
inductive OptKind : Type where
  | flag | value | inline | variadic
  deriving DecidableEq, Repr

/-- The argument kinds of `CommandArgumentKind` (src/core/types.ts). -/
inductive ArgKind : Type where
  | value | variadic
  deriving DecidableEq, Repr

/-- An option declaration (`CommandOption`, src/core/types.ts);
the help-only `description` field is omitted. -/
structure Opt : Type where
  longFlag : String
  kind : OptKind
  shortFlag : Option String := none
  default : Option DefVal := none
  choices : Option (List String) := none
  optional : Bool
  deriving DecidableEq, Repr

/-- An argument declaration (`CommandArgument`, src/core/types.ts);
the help-only `description` field is omitted. -/
structure Arg : Type where
  name : String
  kind : ArgKind
  default : Option DefVal := none
  choices : Option (List String) := none
  optional : Bool
  deriving DecidableEq, Repr

/-- A command declaration tree (`CommandConfig`, src/core/types.ts).
`handlers` only counts the registered callbacks — the callbacks
themselves are opaque to the parser.  `description` is omitted. -/
inductive Config : Type where
  | mk (name : String) (version : String)
       (hiddenHelp : Bool) (hiddenVersion : Bool)
       (aliases : List String)
       (options : List Opt) (arguments : List Arg)
       (handlers : Nat)
       (subcommands : List Config)

def Config.name : Config → String
  | .mk n _ _ _ _ _ _ _ _ => n

def Config.version : Config → String
  | .mk _ v _ _ _ _ _ _ _ => v

def Config.hiddenHelp : Config → Bool
  | .mk _ _ hh _ _ _ _ _ _ => hh

def Config.hiddenVersion : Config → Bool
  | .mk _ _ _ hv _ _ _ _ _ => hv

def Config.aliases : Config → List String
  | .mk _ _ _ _ al _ _ _ _ => al

def Config.options : Config → List Opt
  | .mk _ _ _ _ _ os _ _ _ => os

def Config.arguments : Config → List Arg
  | .mk _ _ _ _ _ _ as _ _ => as

def Config.handlers : Config → Nat
  | .mk _ _ _ _ _ _ _ h _ => h

def Config.subcommands : Config → List Config
  | .mk _ _ _ _ _ _ _ _ subs => subs

mutual

/-- Size of a declaration tree; used only to pay for recursion through
the tree in the embedding (see `validateConfig`). -/
def Config.size : Config → Nat
  | .mk _ _ _ _ _ _ _ _ subs => 1 + Config.sizeList subs

/-- Total size of a list of declaration trees. -/
def Config.sizeList : List Config → Nat
  | [] => 0
  | c :: cs => 1 + Config.size c + Config.sizeList cs

end

/-! ## Token utilities (src/helpers/utils.ts) -/

/-- `isFlag` — the token starts with `-`. -/
def isFlag (token : String) : Bool :=
  match token.toList with
  | c :: _ => c == '-'
  | [] => false

/-- `isInlineOption` — the token contains `=`. -/
def isInlineOption (token : String) : Bool := token.toList.contains '='

/-- `isOption` — flag-shaped or inline-shaped. -/
def isOption (token : String) : Bool := isFlag token || isInlineOption token

/-- `isSubcommand` — the token names a subcommand or one of its aliases. -/
def isSubcommand (token : String) (subcommands : List Config) : Bool :=
  subcommands.any fun cmd => cmd.name == token || cmd.aliases.contains token

/-- `String.prototype.trim()` on the character list. -/
def jsTrim (l : List Char) : List Char :=
  ((l.dropWhile Char.isWhitespace).reverse.dropWhile Char.isWhitespace).reverse

/-- The global dash-dot regex replacement: each `-x` pair becomes
uppercase `x`; a trailing lone `-` is left for the final hyphen
removal. -/
def dashToUpper : List Char → List Char
  | [] => []
  | [c] => [c]
  | c :: d :: rest =>
    if c == '-' then d.toUpper :: dashToUpper rest
    else c :: dashToUpper (d :: rest)

/-- `String.prototype.split(sep)` over character lists (splits at every
occurrence of the separator). -/
def jsSplit (sep : Char) : List Char → List (List Char)
  | [] => [[]]
  | c :: rest =>
    if c == sep then [] :: jsSplit sep rest
    else
      match jsSplit sep rest with
      | [] => [[c]]
      | part :: parts => (c :: part) :: parts

/-- `kebabToCamelCase` — trim, strip the leading run of `-`, turn each
`-x` into uppercase `x`, drop remaining hyphens. -/
def kebabToCamelCase (token : String) : String :=
  String.mk ((dashToUpper ((jsTrim token.toList).dropWhile (· == '-'))).filter (· != '-'))

/-- `handlerVariadic` — collect tokens until one is a subcommand name or
option-shaped; that token is not consumed. -/
def handlerVariadic (tokens : List String) (subcommands : List Config) : List String :=
  match tokens with
  | [] => []
  | t :: rest =>
    if isSubcommand t subcommands || isOption t then []
    else t :: handlerVariadic rest subcommands

/-! ## Result maps -/

/-- `input.options[key] = v` / `Object.assign` single-key update:
an existing key keeps its position, otherwise the key is appended. -/
def setKey : List (String × Value) → String → Value → List (String × Value)
  | [], k, v => [(k, v)]
  | (k', v') :: rest, k, v =>
    if k' == k then (k', v) :: rest else (k', v') :: setKey rest k v

/-- `Object.assign(target, source)` over our association lists. -/
def assignAll (m : List (String × Value)) (kvs : List (String × Value)) :
    List (String × Value) :=
  kvs.foldl (fun acc kv => setKey acc kv.1 kv.2) m

/-- JavaScript truthiness of `m[k]` (an absent key reads `undefined`). -/
def truthyLookup (m : List (String × Value)) (k : String) : Bool :=
  match m.lookup k with
  | some v => v.truthy
  | none => false

/-- `Array.isArray(m[k]) && m[k].length === 0`. -/
def emptyListAt (m : List (String × Value)) (k : String) : Bool :=
  match m.lookup k with
  | some (.list xs) => xs.isEmpty
  | _ => false

/-- The `ParseInput` record of src/helpers/parse/index.ts. -/
structure ParseInput : Type where
  args : List (String × Value)
  options : List (String × Value)
  unparsed : List String
  deriving DecidableEq, Repr

/-! ## Option matcher (src/helpers/parse/option.ts) -/

/-- `String.prototype.includes` on a needle, over character lists. -/
def includesAux (needle : List Char) : List Char → Bool
  | [] => needle.isEmpty
  | c :: rest => needle.isPrefixOf (c :: rest) || includesAux needle rest

/-- `s.includes(sub)`. -/
def strIncludes (s sub : String) : Bool := includesAux sub.toList s.toList

/-- The predicate of `optionDefs.find` in `parseCommandOption`: the
normalized token equals the normalized long/short flag, or (inline
syntax) contains the normalized flag followed by `=`.  The truthiness
guards on `longFlag` / `shortFlag` mirror `if (longFlag)` /
`if (shortFlag)`. -/
def optionMatches (flagName : String) (o : Opt) : Bool :=
  (o.longFlag != "" &&
    (kebabToCamelCase o.longFlag == flagName ||
     strIncludes flagName (kebabToCamelCase o.longFlag ++ "="))) ||
  (match o.shortFlag with
   | some sf =>
     sf != "" &&
       (kebabToCamelCase sf == flagName ||
        strIncludes flagName (kebabToCamelCase sf ++ "="))
   | none => false)

/-- The `ParsedOption` record. -/
structure ParsedOption : Type where
  option : List (String × Value)
  consumed : Nat
  deriving DecidableEq, Repr

/-- `parseCommandOption`.  `optionValue` starts as `null` (`none` here);
a kind whose guard fails leaves it `null` and raises "Unexpected
option".  Note that for a `value` kind whose following token does not
exist, the stored value is JavaScript `undefined` (`Value.undef`), which
is *not* `null`, so no error is raised there. -/
def parseCommandOption (token : String) (tokens : List String) (config : Config) :
    Except String ParsedOption :=
  let flagName := kebabToCamelCase token
  match config.options.find? (optionMatches flagName) with
  | none => .error ("Unknown option: " ++ token)
  | some matchedOption =>
    let index := tokens.indexOf token
    let step : Option Value × Nat :=
      match matchedOption.kind with
      | .value =>
        if isFlag token then
          (some (match tokens.get? (index + 1) with
                 | some s => .str s
                 | none => .undef), 2)
        else (none, 0)
      | .inline =>
        if isInlineOption flagName then
          (some (match (jsSplit '=' flagName.toList).get? 1 with
                 | some v => .str (String.mk v)
                 | none => .undef), 1)
        else (none, 0)
      | .variadic =>
        if isFlag token then
          let vs := handlerVariadic (tokens.drop (index + 1)) config.subcommands
          (some (.list vs), vs.length + 1)
        else (none, 0)
      | .flag =>
        if isFlag token then (some (.bool true), 1) else (none, 0)
    match step.1 with
    | none => .error ("Unexpected option: " ++ token)
    | some v => .ok ⟨[(kebabToCamelCase matchedOption.longFlag, v)], step.2⟩

/-! ## Positional argument matcher (src/helpers/parse/argument.ts) -/

/-- The `ParsedArgument` record. -/
structure ParsedArgument : Type where
  argument : List (String × Value)
  consumed : Nat
  deriving DecidableEq, Repr

/-- `parseCommandArgument`; `consumed` is the length of the collected list for
a variadic argument, else 1. -/
def parseCommandArgument (tokens : List String) (config : Config) (argIndex : Nat) :
    Except String ParsedArgument :=
  match config.arguments.get? argIndex with
  | none => .error ("Unexpected argument: " ++ ((tokens.get? 0).getD ("undefined")))
  | some argDef =>
    let argumentValue : Value :=
      match argDef.kind with
      | .value =>
        match tokens.get? 0 with
        | some t => .str t
        | none => .undef
      | .variadic => .list (handlerVariadic tokens config.subcommands)
    .ok ⟨[(kebabToCamelCase argDef.name, argumentValue)],
         match argumentValue with
         | .list xs => xs.length
         | _ => 1⟩

/-! ## The scan loop of `parseRuntime` (src/helpers/parse/index.ts) -/

/-- Result of the token scan: a thrown error, the help/version
short-circuit (`return input`), normal completion, or fuel exhaustion
(an embedding artifact, proved unreachable). -/
inductive ScanOutcome : Type where
  | err (e : String)
  | short (input : ParseInput)
  | done (input : ParseInput)
  | stuck
  deriving DecidableEq, Repr

def ScanOutcome.isShort : ScanOutcome → Bool
  | .short _ => true
  | _ => false

def ScanOutcome.isStuck : ScanOutcome → Bool
  | .stuck => true
  | _ => false

/-- The `done` input, if the scan completed normally. -/
def ScanOutcome.doneInput : ScanOutcome → Option ParseInput
  | .done i => some i
  | _ => none

/-- The `while (tokenIndex < tokens.length)` loop of `parseRuntime`,
with the remaining token list in place of the cursor (every access in
the source goes through `tokens.slice(tokenIndex)`).  One unit of fuel
per iteration; the loop consumes at least one token per iteration, so
`tokens.length` fuel always suffices (proved below). -/
def scanFuel (config : Config) : Nat → List String → Nat → ParseInput → ScanOutcome
  | _, [], _, input => .done input
  | 0, _ :: _, _, _ => .stuck
  | fuel + 1, token :: rest, argIndex, input =>
    if token == "--" then .done { input with unparsed := rest }
    else if isOption token then
      match parseCommandOption token (token :: rest) config with
      | .error e => .err e
      | .ok parsed =>
        let input := { input with options := assignAll input.options parsed.option }
        if !config.hiddenVersion && (token == "--version" || token == "-v") then
          .short input
        else if !config.hiddenHelp && (token == "--help" || token == "-h") then
          .short input
        else
          scanFuel config fuel ((token :: rest).drop parsed.consumed) argIndex input
    else if isSubcommand token config.subcommands then
      .done { input with unparsed := token :: rest }
    else
      match parseCommandArgument (token :: rest) config argIndex with
      | .error e => .err e
      | .ok parsed =>
        scanFuel config fuel ((token :: rest).drop parsed.consumed) (argIndex + 1)
          { input with args := assignAll input.args parsed.argument }

/-! ## Post-scan validation (src/helpers/parse/index.ts) -/

/-- Membership of a `Value` in a `string[]` via `Array.includes`: only a
string can equal a string. -/
def choiceIncludes (choices : List String) : Value → Bool
  | .str s => choices.contains s
  | _ => false

/-- `${value}` rendering inside the invalid-choice message. -/
def Value.text : Value → String
  | .str s => s
  | .bool b => if b then ("true") else ("false")
  | .list xs => String.intercalate (",") xs
  | .undef => "undefined"

/-- The `for (const value of valuesToCheck)` loop of `validateChoices`. -/
def checkChoiceValues (variant : String) (name : String) (choices : List String) :
    List Value → Except String Unit
  | [] => .ok ()
  | v :: vs =>
    if !choiceIncludes choices v then
      .error ("Value \"" ++ v.text ++ "\" for " ++ variant ++ " \"" ++ name ++
        "\" must be one of: " ++ String.intercalate (", ") choices)
    else checkChoiceValues variant name choices vs

/-- `validateChoices`: a list value is checked element-wise, a truthy
scalar as a singleton, a falsy or missing value not at all. -/
def validateChoices (variant : String) (name : String) (choices : List String)
    (value : Option Value) : Except String Unit :=
  let valuesToCheck : List Value :=
    match value with
    | some (.list xs) => xs.map .str
    | some v => if v.truthy then [v] else []
    | none => []
  checkChoiceValues variant name choices valuesToCheck

/-- The default-substitution step shared by both post-scan passes:
`if (field.default) { if (!input[key] || (isArray && length 0)) input[key] = default }`. -/
def applyDefault (m : List (String × Value)) (key : String) (d? : Option DefVal) :
    List (String × Value) :=
  match d? with
  | some d =>
    if d.truthy then
      if !truthyLookup m key || emptyListAt m key then setKey m key d.toValue else m
    else m
  | none => m

/-- The options pass of the post-scan validation: required check, then
default substitution, then the choices check (against the value read
*before* default substitution), for kinds `inline`/`variadic`/`value`;
`flag` options are skipped. -/
def postScanOptions : List Opt → ParseInput → Except String ParseInput
  | [], input => .ok input
  | o :: rest, input =>
    if o.kind == .inline || o.kind == .variadic || o.kind == .value then
      let key := kebabToCamelCase o.longFlag
      let optionValue := input.options.lookup key
      if !truthyLookup input.options key && !o.optional then
        .error ("Required option \"" ++ o.longFlag ++ "\" is missing")
      else
        let input1 := { input with options := applyDefault input.options key o.default }
        match o.choices with
        | some cs =>
          if (match optionValue with | some (.bool _) => false | _ => true) then
            match validateChoices ("option") o.longFlag cs optionValue with
            | .error e => .error e
            | .ok _ => postScanOptions rest input1
          else postScanOptions rest input1
        | none => postScanOptions rest input1
    else postScanOptions rest input

/-- The arguments pass of the post-scan validation (no kind filter and
no `typeof` guard before the choices check). -/
def postScanArgs : List Arg → ParseInput → Except String ParseInput
  | [], input => .ok input
  | a :: rest, input =>
    let key := kebabToCamelCase a.name
    let argValue := input.args.lookup key
    if !truthyLookup input.args key && !a.optional then
      .error ("Required argument \"" ++ a.name ++ "\" is missing")
    else
      let input1 := { input with args := applyDefault input.args key a.default }
      match a.choices with
      | some cs =>
        match validateChoices ("argument") a.name cs argValue with
        | .error e => .error e
        | .ok _ => postScanArgs rest input1
      | none => postScanArgs rest input1

/-! ## Declaration validators (src/helpers/validate/) -/

/-- The name grammar of `checkNameFormat` (validate/name.ts):
`^[a-zA-Z][a-zA-Z0-9_-]*$`. -/
def nameOk (name : String) : Bool :=
  match name.toList with
  | [] => false
  | c :: rest =>
    c.isAlpha && rest.all fun d => d.isAlpha || d.isDigit || d == '_' || d == '-'

/-- `checkNameFormat` (validate/name.ts). -/
def checkNameFormat (name : String) (variant : String) : Except String Unit :=
  if !nameOk name then
    .error (variant ++ " name \"" ++ name ++
      "\" must start with a letter and contain only letters, numbers, underscores, or hyphens")
  else .ok ()

/-- `validateName` (validate/name.ts). -/
def validateName (name : String) : Except String Unit :=
  if name == "" then .error ("Command name is required")
  else checkNameFormat name ("Command")

/-- The loop of `validateAliases` (validate/name.ts), with the `Set` of
seen aliases made explicit. -/
def validateAliasesGo (seen : List String) : List String → Except String Unit
  | [] => .ok ()
  | alias_ :: rest => do
    checkNameFormat alias_ ("Alias")
    if seen.contains alias_ then
      throw ("Duplicate alias \"" ++ alias_ ++ "\"")
    validateAliasesGo (alias_ :: seen) rest

/-- `validateAliases`. -/
def validateAliases (aliases : List String) : Except String Unit :=
  validateAliasesGo [] aliases

/-- `defaultValues`: a scalar default as a singleton list. -/
def DefVal.values : DefVal → List String
  | .str s => [s]
  | .list xs => xs

/-- `Array.isArray(default)` for an optional default. -/
def isArrayDefault : Option DefVal → Bool
  | some (.list _) => true
  | _ => false

/-- The `choices && default` membership check shared by
`validateArguments` and `validateOptions`: throws unless *some* declared
choice occurs among the default values. -/
def checkChoicesDefault (variant : String) (name : String)
    (choices : Option (List String)) (default : Option DefVal) :
    Except String Unit :=
  match choices, default with
  | some cs, some d =>
    if d.truthy then
      if !(cs.any fun choice => (d.values).contains choice) then
        .error ("Default value \"" ++ d.text ++ "\" for " ++ variant ++ " \"" ++
          name ++ "\" must be one of: " ++ String.intercalate (", ") cs)
      else .ok ()
    else .ok ()
  | _, _ => .ok ()

/-- The loop of `validateArguments` (validate/argument.ts), with the
`Set` of seen names made explicit. -/
def validateArgumentsGo (seen : List String) : List Arg → Except String Unit
  | [] => .ok ()
  | a :: rest => do
    if a.name == "" then
      throw ("Argument name is required")
    checkNameFormat a.name ("Argument")
    if seen.contains a.name then
      throw ("Duplicate argument name \"" ++ a.name ++ "\"")
    checkChoicesDefault ("argument") a.name a.choices a.default
    if !a.optional && defTruthy a.default then
      throw ("Argument \"" ++ a.name ++ "\" cannot have a default value if it's required")
    if a.kind != .variadic && defTruthy a.default && isArrayDefault a.default then
      throw ("Default value for argument \"" ++ a.name ++
        "\" cannot be an array if variant is value")
    validateArgumentsGo (a.name :: seen) rest

/-- `validateArguments`. -/
def validateArguments (args : List Arg) : Except String Unit :=
  validateArgumentsGo [] args

/-- The flag grammar of `validateOptionFormat` (validate/option.ts):
`^[a-zA-Z-][a-zA-Z0-9_-]*$`. -/
def flagOk (name : String) : Bool :=
  match name.toList with
  | [] => false
  | c :: rest =>
    (c.isAlpha || c == '-') &&
      rest.all fun d => d.isAlpha || d.isDigit || d == '_' || d == '-'

/-- `validateOptionFormat`: checks only a present, non-empty name. -/
def validateOptionFormat (name : Option String) (variant : String) :
    Except String Unit :=
  match name with
  | some n =>
    if n != "" && !flagOk n then
      .error ("Invalid " ++ variant ++ " \"" ++ n ++ "\". " ++ variant ++
        "s must start with a letter or hyphen and contain only letters, numbers, hyphens, or underscores.")
    else .ok ()
  | none => .ok ()

/-- The loop of `validateOptions` (validate/option.ts): long and short
flags share one `Set` for duplicate detection; the choices/default and
default/required checks apply to kinds `value`/`variadic`/`inline`. -/
def validateOptionsGo (seen : List String) : List Opt → Except String Unit
  | [] => .ok ()
  | o :: rest => do
    if o.longFlag == "" then
      throw ("Option longFlag is required")
    validateOptionFormat (some o.longFlag) ("Long flag")
    validateOptionFormat o.shortFlag ("Short flag")
    if seen.contains o.longFlag then
      throw ("Duplicate option longFlag \"" ++ o.longFlag ++ "\"")
    let seen1 := o.longFlag :: seen
    match o.shortFlag with
    | some sf =>
      if sf != "" && seen1.contains sf then
        throw ("Duplicate shortFlag \"" ++ sf ++ "\" in options")
    | none => pure ()
    let seen2 :=
      match o.shortFlag with
      | some sf => if sf != "" then sf :: seen1 else seen1
      | none => seen1
    if o.kind == .value || o.kind == .variadic || o.kind == .inline then do
      checkChoicesDefault ("option") o.longFlag o.choices o.default
      if !o.optional && defTruthy o.default then
        throw ("Option \"" ++ o.longFlag ++ "\" cannot have a default value if it's required")
    validateOptionsGo seen2 rest

/-- `validateOptions`. -/
def validateOptions (options : List Opt) : Except String Unit :=
  validateOptionsGo [] options

/-- The non-recursive part of `validateConfig` (validate/index.ts): the
name, alias, argument and option checks of one command level. -/
def validateOwn (c : Config) : Except String Unit := do
  validateName c.name
  validateAliases c.aliases
  validateArguments c.arguments
  validateOptions c.options

/-- The loop of `validateSubcommands` (validate/sub.ts), fused with the
recursive `validateConfig(subConfig)` call it makes.  The recursion
through the declaration tree is paid for with explicit fuel so that the
definition stays structurally recursive; `validateSubsFuel_stable` below
shows any fuel at least `sizeOf` the list gives the same result. -/
def validateSubsFuel : Nat → List String → List Config → Except String Unit
  | 0, _, _ => .error ("subcommand validation fuel exhausted")
  | _ + 1, _, [] => .ok ()
  | fuel + 1, seen, sub :: rest => do
    if sub.name == "" then
      throw ("Subcommand name is required")
    if seen.contains sub.name then
      throw ("Duplicate subcommand name \"" ++ sub.name ++ "\"")
    validateOwn sub
    validateSubsFuel fuel [] sub.subcommands
    validateSubsFuel fuel (sub.name :: seen) rest

/-- `validateConfig` (validate/index.ts): the own checks of this level, then
`validateSubcommands`, which recursively runs `validateConfig` on every
subcommand — the whole declaration subtree is validated. -/
def validateConfig (c : Config) : Except String Unit := do
  validateOwn c
  validateSubsFuel c.size [] c.subcommands

/-! ## `parseRuntime` (src/helpers/parse/index.ts) -/

/-- `parseRuntime`: validate the declaration, scan the tokens (the loop
runs at most `tokens.length` iterations — see `scanFuel_stable`), then
run the post-scan option and argument validation unless the scan
short-circuited on help/version. -/
def parseRuntime (config : Config) (tokens : List String) :
    Except String ParseInput :=
  match validateConfig config with
  | .error e => .error e
  | .ok _ =>
    match scanFuel config tokens.length tokens 0 ⟨[], [], []⟩ with
    | .stuck => .error ("parse loop fuel exhausted")
    | .err e => .error e
    | .short input => .ok input
    | .done input =>
      match postScanOptions config.options input with
      | .error e => .error e
      | .ok input1 => postScanArgs config.arguments input1

/-! ## The dispatch runner (src/helpers/runner.ts) -/

/-- `Object.assign(targetArray, sourceArray)`: index properties are
overwritten one by one, so elements of the longer old array beyond the
new length survive. -/
def overlayList (old new_ : List String) : List String :=
  new_ ++ old.drop new_.length

/-- The module-level mutable state of src/helpers/runner.ts: the
`input` accumulator object and the `commandNames` array, both declared
at module scope and therefore shared by *every* `runner` invocation in
the process. -/
structure ModuleState : Type where
  input : ParseInput
  commandNames : List String
  deriving DecidableEq, Repr

/-- The state of a freshly loaded module. -/
def initialModuleState : ModuleState :=
  ⟨⟨[], [], []⟩, []⟩

/-- One handler invocation, recorded as the command name together with
the `input` object the handler receives. -/
structure HandlerCall : Type where
  command : String
  input : ParseInput
  deriving DecidableEq, Repr

/-- `runner` (src/helpers/runner.ts): parse, push the command name,
merge the parse result into the shared `input`, short-circuit on
help/version, run the handlers (each observing the shared `input`), then
recurse into a matching subcommand with the unparsed tail.  Fuel pays
for the recursion through the tree; a thrown `CommandError` propagates
as `.error`. -/
def runnerFuel : Nat → ModuleState → Config → List String →
    Except String (ModuleState × List HandlerCall)
  | 0, _, _, _ => .error ("runner fuel exhausted")
  | fuel + 1, st, config, tokens =>
    match parseRuntime config tokens with
    | .error e => .error e
    | .ok parsed =>
      let st : ModuleState :=
        { commandNames := st.commandNames ++ [config.name]
          input :=
            { options := assignAll st.input.options parsed.options
              args := assignAll st.input.args parsed.args
              unparsed := overlayList st.input.unparsed parsed.unparsed } }
      if truthyLookup parsed.options ("help") && !config.hiddenHelp then
        .ok (st, [])
      else if truthyLookup parsed.options ("version") && !config.hiddenVersion then
        .ok (st, [])
      else
        let calls := List.replicate config.handlers ⟨config.name, st.input⟩
        if parsed.unparsed.length > 0 then
          match parsed.unparsed.head? with
          | none => .ok (st, calls)
          | some subName =>
            match config.subcommands.find?
                (fun cmd => cmd.name == subName || cmd.aliases.contains subName) with
            | some subcommand =>
              match runnerFuel fuel st subcommand (parsed.unparsed.drop 1) with
              | .error e => .error e
              | .ok (st', calls') => .ok (st', calls ++ calls')
            | none => .ok (st, calls)
        else .ok (st, calls)

/-! ## Concrete declaration fixtures used by the claims -/

/-- A command with one optional `value` option `--out`. -/
def valueOptCfg : Config :=
  ⟨"app", "1.0.0", false, false, [], [⟨"--out", .value, none, none, none, true⟩], [], 0, []⟩

/-- A command with one required `value` option `--out`. -/
def valueOptReqCfg : Config :=
  ⟨"app", "1.0.0", false, false, [], [⟨"--out", .value, none, none, none, false⟩], [], 0, []⟩

/-- A command with a required `value` option `--name` and the built-in
`--help` flag option. -/
def helpCfg : Config :=
  ⟨"app", "1.0.0", false, false, [],
    [⟨"--name", .value, none, none, none, false⟩,
     ⟨"--help", .flag, some "-h", none, none, true⟩], [], 0, []⟩

/-- A command whose only option is a required `flag` option. -/
def flagReqCfg : Config :=
  ⟨"app", "1.0.0", false, false, [], [⟨"--force", .flag, none, none, none, false⟩], [], 0, []⟩

/-- A command with one inline option `--output`. -/
def inlineCfg : Config :=
  ⟨"app", "1.0.0", false, false, [], [⟨"--output", .inline, none, none, none, true⟩], [], 0, []⟩

/-- The inline option declaration of `inlineCfg`. -/
def outputOpt : Opt := ⟨"--output", .inline, none, none, none, true⟩

/-- A subcommand whose own declaration is invalid: two arguments share
the name `x`. -/
def badSubCfg : Config :=
  ⟨"sub", "1.0.0", false, false, [], [],
    [⟨"x", .value, none, none, false⟩, ⟨"x", .value, none, none, false⟩], 0, []⟩

/-- A structurally valid root holding the invalid subcommand. -/
def rootBadSubCfg : Config :=
  ⟨"root", "1.0.0", false, false, [], [], [], 0, [badSubCfg]⟩

/-- A command with a variadic positional `files` and a subcommand `push`. -/
def variadicCfg : Config :=
  ⟨"cli", "1.0.0", false, false, [], [], [⟨"files", .variadic, none, none, false⟩], 0,
    [⟨"push", "1.0.0", false, false, [], [], [], 0, []⟩]⟩

/-- A command whose optional `value` option declares the empty string as
its default. -/
def emptyDefaultCfg : Config :=
  ⟨"app", "1.0.0", false, false, [], [⟨"--mode", .value, none, some (.str ""), none, true⟩], [], 0, []⟩

/-- A command where every non-`flag` option and every argument is
optional and carries a truthy default. -/
def defaultsCfg : Config :=
  ⟨"app", "1.0.0", false, false, [],
    [⟨"--mode", .value, none, some (.str "dev"), none, true⟩,
     ⟨"--tags", .variadic, none, some (.list ["a"]), none, true⟩,
     ⟨"--verbose", .flag, none, none, none, true⟩],
    [⟨"entry", .value, some (.str "main.ts"), none, true⟩], 0, []⟩

/-- A command for the runner claims: one handler, one subcommand `sub`
carrying an optional `value` option `--m` and its own handler. -/
def runnerCfg : Config :=
  ⟨"app", "1.0.0", false, false, [], [], [], 1,
    [⟨"sub", "1.0.0", false, false, [], [⟨"--m", .value, none, none, none, true⟩], [], 1, []⟩]⟩

/-- The tokens dispatched through `runnerCfg`. -/
def runnerTokens : List String := ["sub", "--m", "v"]

/-- Module state after the first `runnerFuel` run of `runnerCfg` on
`runnerTokens`, starting from a fresh module. -/
def runnerState1 : ModuleState :=
  ⟨⟨[], [("m", .str "v")], ["sub", "--m", "v"]⟩, ["app", "sub"]⟩

/-- Module state after the second (identical) run. -/
def runnerState2 : ModuleState :=
  ⟨⟨[], [("m", .str "v")], ["sub", "--m", "v"]⟩, ["app", "sub", "app", "sub"]⟩

/-- Module state after the third (identical) run. -/
def runnerState3 : ModuleState :=
  ⟨⟨[], [("m", .str "v")], ["sub", "--m", "v"]⟩, ["app", "sub", "app", "sub", "app", "sub"]⟩

/-- The handler calls of the first run: the root handler still sees an
empty options object. -/
def runnerCalls1 : List HandlerCall :=
  [⟨"app", ⟨[], [], ["sub", "--m", "v"]⟩⟩,
   ⟨"sub", ⟨[], [("m", .str "v")], ["sub", "--m", "v"]⟩⟩]

/-- The handler calls of the second and third runs: the root handler now
sees the `m` key deposited by the first run subcommand level. -/
def runnerCalls2 : List HandlerCall :=
  [⟨"app", ⟨[], [("m", .str "v")], ["sub", "--m", "v"]⟩⟩,
   ⟨"sub", ⟨[], [("m", .str "v")], ["sub", "--m", "v"]⟩⟩]

deriving instance DecidableEq for Except

/-! ## Helper lemmas -/

/-- `Except.error` propagates through `bind`. -/
theorem error_bind {α β : Type} (e : String) (k : α → Except String β) :
    (Except.error e >>= k) = Except.error e := rfl

/-- `Except.ok` reduces through `bind`. -/
theorem ok_bind {α β : Type} (a : α) (k : α → Except String β) :
    (Except.ok a >>= k) = k a := rfl

/-- `throw` on `Except` is `Except.error`. -/
theorem throw_eq (e : String) {α : Type} : (throw e : Except String α) = .error e := rfl

theorem lookup_setKey_self (m : List (String × Value)) (k : String) (v : Value) :
    (setKey m k v).lookup k = some v := by
  induction m with
  | nil => simp [setKey]
  | cons kv rest ih =>
    obtain ⟨k₁, v₁⟩ := kv
    by_cases h : k₁ = k
    · subst h
      simp [setKey, List.lookup]
    · simp [setKey, beq_false_of_ne h, List.lookup, beq_false_of_ne (Ne.symm h), ih]

theorem lookup_setKey_ne (m : List (String × Value)) (k : String) (v : Value)
    (k' : String) (h : k' ≠ k) :
    (setKey m k v).lookup k' = m.lookup k' := by
  induction m with
  | nil => simp [setKey, List.lookup, beq_false_of_ne h]
  | cons kv rest ih =>
    obtain ⟨k₁, v₁⟩ := kv
    by_cases h1 : k₁ = k
    · subst h1
      simp [setKey, List.lookup, beq_false_of_ne h]
    · by_cases h2 : k' = k₁
      · subst h2
        simp [setKey, beq_false_of_ne h1, List.lookup]
      · simp [setKey, beq_false_of_ne h1, List.lookup, beq_false_of_ne h2, ih]

theorem lookup_applyDefault_ne (m : List (String × Value)) (key : String)
    (d? : Option DefVal) (k' : String) (h : k' ≠ key) :
    (applyDefault m key d?).lookup k' = m.lookup k' := by
  rcases d? with _ | d
  · rfl
  · simp only [applyDefault]
    split
    · split
      · exact lookup_setKey_ne m key d.toValue k' h
      · rfl
    · rfl

theorem truthyLookup_applyDefault_ne (m : List (String × Value)) (key : String)
    (d? : Option DefVal) (k' : String) (h : k' ≠ key) :
    truthyLookup (applyDefault m key d?) k' = truthyLookup m k' := by
  simp [truthyLookup, lookup_applyDefault_ne m key d? k' h]

/-- The options pass only ever modifies the `options` map. -/
theorem postScanOptions_preserves (opts : List Opt) (input out : ParseInput)
    (h : postScanOptions opts input = .ok out) :
    out.args = input.args ∧ out.unparsed = input.unparsed := by
  induction opts generalizing input with
  | nil =>
    simp [postScanOptions] at h
    simp [← h]
  | cons o rest ih =>
    simp only [postScanOptions] at h
    split at h
    · split at h
      · exact absurd h (by simp)
      · split at h
        · split at h
          · split at h
            · exact absurd h (by simp)
            · simpa using ih _ h
          · simpa using ih _ h
        · simpa using ih _ h
    · exact ih _ h

/-- The arguments pass only ever modifies the `args` map. -/
theorem postScanArgs_preserves (args : List Arg) (input out : ParseInput)
    (h : postScanArgs args input = .ok out) :
    out.options = input.options ∧ out.unparsed = input.unparsed := by
  induction args generalizing input with
  | nil =>
    simp [postScanArgs] at h
    simp [← h]
  | cons a rest ih =>
    simp only [postScanArgs] at h
    split at h
    · exact absurd h (by simp)
    · split at h
      · split at h
        · exact absurd h (by simp)
        · simpa using ih _ h
      · simpa using ih _ h

/-- If some declared non-`flag` option is non-optional and the scan left
its key falsy or absent, the options pass throws (provided no two
options share a result key). -/
theorem postScanOptions_required_error (opts : List Opt) (input : ParseInput) (o : Opt)
    (hmem : o ∈ opts)
    (hkind : o.kind = .value ∨ o.kind = .inline ∨ o.kind = .variadic)
    (hopt : o.optional = false)
    (hnodup : (opts.map fun o' => kebabToCamelCase o'.longFlag).Nodup)
    (hfalsy : truthyLookup input.options (kebabToCamelCase o.longFlag) = false) :
    ∃ e, postScanOptions opts input = .error e := by
  induction opts generalizing input with
  | nil => cases hmem
  | cons o' rest ih =>
    have hnodup' : (rest.map fun o'' => kebabToCamelCase o''.longFlag).Nodup :=
      (List.nodup_cons.mp hnodup).2
    rcases List.mem_cons.mp hmem with rfl | hmem'
    · have hkb : (o.kind == OptKind.inline || o.kind == OptKind.variadic ||
          o.kind == OptKind.value) = true := by
        rcases hkind with h | h | h <;> simp [h]
      simp [postScanOptions, hkb, hfalsy, hopt]
    · have hne : kebabToCamelCase o.longFlag ≠ kebabToCamelCase o'.longFlag := by
        intro heq
        refine (List.nodup_cons.mp hnodup).1 ?_
        rw [List.mem_map]
        exact ⟨o, hmem', heq⟩
      by_cases hk' : (o'.kind == OptKind.inline || o'.kind == OptKind.variadic ||
          o'.kind == OptKind.value) = true
      · by_cases hreq : (!truthyLookup input.options (kebabToCamelCase o'.longFlag) &&
            !o'.optional) = true
        · simp [postScanOptions, hk', hreq]
        · have hreq' := eq_false_of_ne_true hreq
          have hfalsy1 : truthyLookup
              (applyDefault input.options (kebabToCamelCase o'.longFlag) o'.default)
              (kebabToCamelCase o.longFlag) = false := by
            rw [truthyLookup_applyDefault_ne _ _ _ _ hne]
            exact hfalsy
          rcases hc : o'.choices with _ | cs
          · simp only [postScanOptions, hk', if_true, hreq', Bool.false_eq_true, if_false, hc]
            exact ih _ hmem' hnodup' hfalsy1
          · by_cases hg : (match input.options.lookup (kebabToCamelCase o'.longFlag) with
                | some (.bool _) => false
                | _ => true) = true
            · rcases hv : validateChoices "option" o'.longFlag cs
                  (input.options.lookup (kebabToCamelCase o'.longFlag)) with e | u
              · simp [postScanOptions, hk', hreq', hc, hg, hv]
              · simp only [postScanOptions, hk', if_true, hreq', Bool.false_eq_true, if_false,
                  hc, hg, hv]
                exact ih _ hmem' hnodup' hfalsy1
            · have hg' := eq_false_of_ne_true hg
              simp only [postScanOptions, hk', if_true, hreq', Bool.false_eq_true, if_false,
                hc, hg', Bool.false_eq_true]
              exact ih _ hmem' hnodup' hfalsy1
      · have hk'' := eq_false_of_ne_true hk'
        simp only [postScanOptions, hk'', Bool.false_eq_true, if_false]
        exact ih _ hmem' hnodup' hfalsy

/-- If some declared positional argument is non-optional and the scan
left its key falsy or absent, the arguments pass throws (provided no
two arguments share a result key). -/
theorem postScanArgs_required_error (args : List Arg) (input : ParseInput) (a : Arg)
    (hmem : a ∈ args) (hopt : a.optional = false)
    (hnodup : (args.map fun a' => kebabToCamelCase a'.name).Nodup)
    (hfalsy : truthyLookup input.args (kebabToCamelCase a.name) = false) :
    ∃ e, postScanArgs args input = .error e := by
  induction args generalizing input with
  | nil => cases hmem
  | cons a' rest ih =>
    have hnodup' : (rest.map fun a'' => kebabToCamelCase a''.name).Nodup :=
      (List.nodup_cons.mp hnodup).2
    rcases List.mem_cons.mp hmem with rfl | hmem'
    · simp [postScanArgs, hfalsy, hopt]
    · have hne : kebabToCamelCase a.name ≠ kebabToCamelCase a'.name := by
        intro heq
        refine (List.nodup_cons.mp hnodup).1 ?_
        rw [List.mem_map]
        exact ⟨a, hmem', heq⟩
      by_cases hreq : (!truthyLookup input.args (kebabToCamelCase a'.name) &&
          !a'.optional) = true
      · simp [postScanArgs, hreq]
      · have hreq' := eq_false_of_ne_true hreq
        have hfalsy1 : truthyLookup
            (applyDefault input.args (kebabToCamelCase a'.name) a'.default)
            (kebabToCamelCase a.name) = false := by
          rw [truthyLookup_applyDefault_ne _ _ _ _ hne]
          exact hfalsy
        rcases hc : a'.choices with _ | cs
        · simp only [postScanArgs, hreq', Bool.false_eq_true, if_false, hc]
          exact ih _ hmem' hnodup' hfalsy1
        · rcases hv : validateChoices "argument" a'.name cs
              (input.args.lookup (kebabToCamelCase a'.name)) with e | u
          · simp [postScanArgs, hreq', hc, hv]
          · simp only [postScanArgs, hreq', Bool.false_eq_true, if_false, hc, hv]
            exact ih _ hmem' hnodup' hfalsy1

/-- Anything not `flag` satisfies the kind filter of the options pass. -/
theorem optKind_filter_true (o : Opt) (h : o.kind ≠ .flag) :
    (o.kind == OptKind.inline || o.kind == OptKind.variadic || o.kind == OptKind.value) = true := by
  cases hk : o.kind <;> simp_all

/-- On an input whose options map holds none of the (non-`flag`) option
keys, the options pass succeeds and writes, for every such option, its truthy
default under its key. -/
theorem postScanOptions_defaults (opts : List Opt) (input : ParseInput)
    (hopts : ∀ o ∈ opts, o.kind ≠ .flag → o.optional = true ∧ defTruthy o.default = true)
    (hnodup : ((opts.filter fun o => o.kind != .flag).map
      fun o => kebabToCamelCase o.longFlag).Nodup)
    (habsent : ∀ o ∈ opts, o.kind ≠ .flag →
      input.options.lookup (kebabToCamelCase o.longFlag) = none) :
    ∃ out, postScanOptions opts input = .ok out ∧
      out.args = input.args ∧ out.unparsed = input.unparsed ∧
      (∀ o ∈ opts, o.kind ≠ .flag → ∃ d, o.default = some d ∧
        out.options.lookup (kebabToCamelCase o.longFlag) = some d.toValue) ∧
      (∀ k, (∀ o ∈ opts, o.kind ≠ .flag → k ≠ kebabToCamelCase o.longFlag) →
        out.options.lookup k = input.options.lookup k) := by
  induction opts generalizing input with
  | nil =>
    refine ⟨input, by simp [postScanOptions], rfl, rfl, by simp, fun k _ => rfl⟩
  | cons o rest ih =>
    by_cases hflag : o.kind = .flag
    · have hkb : (o.kind == OptKind.inline || o.kind == OptKind.variadic ||
          o.kind == OptKind.value) = false := by
        rw [hflag]; rfl
      rw [List.filter_cons, if_neg (by simp [hflag])] at hnodup
      obtain ⟨out, hrun, hargs, hunp, hkeys, hframe⟩ :=
        ih input (fun o' h' hnf => hopts o' (List.mem_cons_of_mem _ h') hnf) hnodup
          (fun o' h' hnf => habsent o' (List.mem_cons_of_mem _ h') hnf)
      refine ⟨out, ?_, hargs, hunp, ?_, ?_⟩
      · simp only [postScanOptions, hkb, Bool.false_eq_true, if_false]
        exact hrun
      · intro o' h' hnf
        rcases List.mem_cons.mp h' with rfl | h''
        · exact absurd hflag hnf
        · exact hkeys o' h'' hnf
      · intro k hk
        exact hframe k fun o' h' hnf => hk o' (List.mem_cons_of_mem _ h') hnf
    · -- non-flag head: default gets substituted
      have hkb := optKind_filter_true o hflag
      obtain ⟨hoptional, hdeft⟩ := hopts o (List.mem_cons_self o rest) hflag
      obtain ⟨d, hd⟩ : ∃ d, o.default = some d := by
        cases hdd : o.default
        · rw [hdd] at hdeft; exact absurd hdeft (by simp [defTruthy])
        · exact ⟨_, rfl⟩
      have hdt : d.truthy = true := by
        rw [hd] at hdeft; simpa [defTruthy] using hdeft
      rw [List.filter_cons, if_pos (by simp [hflag]), List.map_cons] at hnodup
      obtain ⟨hnotmem, hnodup'⟩ := List.nodup_cons.mp hnodup
      have habs0 := habsent o (List.mem_cons_self o rest) hflag
      have hfal : truthyLookup input.options (kebabToCamelCase o.longFlag) = false := by
        simp [truthyLookup, habs0]
      have happly : applyDefault input.options (kebabToCamelCase o.longFlag) o.default =
          setKey input.options (kebabToCamelCase o.longFlag) d.toValue := by
        simp [applyDefault, hd, hdt, hfal]
      have hne : ∀ o' ∈ rest, o'.kind ≠ .flag →
          kebabToCamelCase o'.longFlag ≠ kebabToCamelCase o.longFlag := by
        intro o' h' hnf heq
        refine hnotmem ?_
        rw [List.mem_map]
        exact ⟨o', List.mem_filter.mpr ⟨h', by simpa using hnf⟩, heq⟩
      obtain ⟨out, hrun, hargs, hunp, hkeys, hframe⟩ :=
        ih { input with options := setKey input.options (kebabToCamelCase o.longFlag) d.toValue }
          (fun o' h' hnf => hopts o' (List.mem_cons_of_mem _ h') hnf) hnodup'
          (by
            intro o' h' hnf
            show (setKey input.options (kebabToCamelCase o.longFlag)
                d.toValue).lookup (kebabToCamelCase o'.longFlag) = none
            rw [lookup_setKey_ne _ _ _ _ (hne o' h' hnf)]
            exact habsent o' (List.mem_cons_of_mem _ h') hnf)
      refine ⟨out, ?_, by simpa using hargs, by simpa using hunp, ?_, ?_⟩
      · simp only [postScanOptions, hkb, if_true, hfal, hoptional, Bool.not_true,
          Bool.and_false, Bool.false_eq_true, if_false, happly]
        rcases hc : o.choices with _ | cs
        · exact hrun
        · simp only [habs0, validateChoices, checkChoiceValues]
          exact hrun
      · intro o' h' hnf
        rcases List.mem_cons.mp h' with rfl | h''
        · refine ⟨d, hd, ?_⟩
          have h1 : out.options.lookup (kebabToCamelCase o'.longFlag) =
              (setKey input.options (kebabToCamelCase o'.longFlag)
                d.toValue).lookup (kebabToCamelCase o'.longFlag) := by
            refine hframe _ ?_
            intro o'' h'' hnf'' heq
            exact hne o'' h'' hnf'' heq.symm
          rw [h1]
          exact lookup_setKey_self _ _ _
        · exact hkeys o' h'' hnf
      · intro k hk
        have h1 : out.options.lookup k =
            (setKey input.options (kebabToCamelCase o.longFlag) d.toValue).lookup k :=
          hframe k fun o' h' hnf => hk o' (List.mem_cons_of_mem _ h') hnf
        rw [h1, lookup_setKey_ne _ _ _ _ (hk o (List.mem_cons_self o rest) hflag)]

/-- Arguments-pass analog of `postScanOptions_defaults`. -/
theorem postScanArgs_defaults (args : List Arg) (input : ParseInput)
    (hargsH : ∀ a ∈ args, a.optional = true ∧ defTruthy a.default = true)
    (hnodup : (args.map fun a => kebabToCamelCase a.name).Nodup)
    (habsent : ∀ a ∈ args, input.args.lookup (kebabToCamelCase a.name) = none) :
    ∃ out, postScanArgs args input = .ok out ∧
      out.options = input.options ∧ out.unparsed = input.unparsed ∧
      (∀ a ∈ args, ∃ d, a.default = some d ∧
        out.args.lookup (kebabToCamelCase a.name) = some d.toValue) ∧
      (∀ k, (∀ a ∈ args, k ≠ kebabToCamelCase a.name) →
        out.args.lookup k = input.args.lookup k) := by
  induction args generalizing input with
  | nil =>
    refine ⟨input, by simp [postScanArgs], rfl, rfl, by simp, fun k _ => rfl⟩
  | cons a rest ih =>
    obtain ⟨hoptional, hdeft⟩ := hargsH a (List.mem_cons_self a rest)
    obtain ⟨d, hd⟩ : ∃ d, a.default = some d := by
      cases hdd : a.default
      · rw [hdd] at hdeft; exact absurd hdeft (by simp [defTruthy])
      · exact ⟨_, rfl⟩
    have hdt : d.truthy = true := by
      rw [hd] at hdeft; simpa [defTruthy] using hdeft
    rw [List.map_cons] at hnodup
    obtain ⟨hnotmem, hnodup'⟩ := List.nodup_cons.mp hnodup
    have habs0 := habsent a (List.mem_cons_self a rest)
    have hfal : truthyLookup input.args (kebabToCamelCase a.name) = false := by
      simp [truthyLookup, habs0]
    have happly : applyDefault input.args (kebabToCamelCase a.name) a.default =
        setKey input.args (kebabToCamelCase a.name) d.toValue := by
      simp [applyDefault, hd, hdt, hfal]
    have hne : ∀ a' ∈ rest,
        kebabToCamelCase a'.name ≠ kebabToCamelCase a.name := by
      intro a' h' heq
      refine hnotmem ?_
      rw [List.mem_map]
      exact ⟨a', h', heq⟩
    obtain ⟨out, hrun, hopts, hunp, hkeys, hframe⟩ :=
      ih { input with args := setKey input.args (kebabToCamelCase a.name) d.toValue }
        (fun a' h' => hargsH a' (List.mem_cons_of_mem _ h')) hnodup'
        (by
          intro a' h'
          show (setKey input.args (kebabToCamelCase a.name)
              d.toValue).lookup (kebabToCamelCase a'.name) = none
          rw [lookup_setKey_ne _ _ _ _ (hne a' h')]
          exact habsent a' (List.mem_cons_of_mem _ h'))
    refine ⟨out, ?_, by simpa using hopts, by simpa using hunp, ?_, ?_⟩
    · simp only [postScanArgs, hfal, hoptional, Bool.not_true, Bool.and_false,
        Bool.false_eq_true, if_false, happly]
      rcases hc : a.choices with _ | cs
      · exact hrun
      · simp only [habs0, validateChoices, checkChoiceValues]
        exact hrun
    · intro a' h'
      rcases List.mem_cons.mp h' with rfl | h''
      · refine ⟨d, hd, ?_⟩
        have h1 : out.args.lookup (kebabToCamelCase a'.name) =
            (setKey input.args (kebabToCamelCase a'.name)
              d.toValue).lookup (kebabToCamelCase a'.name) := by
          refine hframe _ ?_
          intro a'' h'' heq
          exact hne a'' h'' heq.symm
        rw [h1]
        exact lookup_setKey_self _ _ _
      · exact hkeys a' h''
    · intro k hk
      have h1 : out.args.lookup k =
          (setKey input.args (kebabToCamelCase a.name) d.toValue).lookup k :=
        hframe k fun a' h' => hk a' (List.mem_cons_of_mem _ h')
      rw [h1, lookup_setKey_ne _ _ _ _ (hk a (List.mem_cons_self a rest))]

theorem Config.size_pos (c : Config) : 1 ≤ c.size := by
  cases c
  simp [Config.size]

theorem Config.sizeList_subcommands_lt (c : Config) :
    Config.sizeList c.subcommands < c.size := by
  cases c
  simp [Config.size, Config.subcommands]

theorem Config.sizeList_cons (c : Config) (cs : List Config) :
    Config.sizeList (c :: cs) = 1 + c.size + Config.sizeList cs := rfl

/-- Any fuel above the total size of the subtree list gives the same
validation result: the fuel is an embedding device only. -/
theorem validateSubsFuel_stable (n : Nat) : ∀ (subs : List Config),
    Config.sizeList subs ≤ n → ∀ (f g : Nat) (seen : List String),
    Config.sizeList subs < f → Config.sizeList subs < g →
    validateSubsFuel f seen subs = validateSubsFuel g seen subs := by
  induction n with
  | zero =>
    intro subs hle f g seen hf hg
    cases subs with
    | nil =>
      obtain ⟨f', rfl⟩ : ∃ f', f = f' + 1 := ⟨f - 1, by omega⟩
      obtain ⟨g', rfl⟩ : ∃ g', g = g' + 1 := ⟨g - 1, by omega⟩
      rfl
    | cons sub rest =>
      rw [Config.sizeList_cons] at hle
      have := Config.size_pos sub
      omega
  | succ n ih =>
    intro subs hle f g seen hf hg
    cases subs with
    | nil =>
      obtain ⟨f', rfl⟩ : ∃ f', f = f' + 1 := ⟨f - 1, by omega⟩
      obtain ⟨g', rfl⟩ : ∃ g', g = g' + 1 := ⟨g - 1, by omega⟩
      rfl
    | cons sub rest =>
      obtain ⟨f', rfl⟩ : ∃ f', f = f' + 1 := ⟨f - 1, by omega⟩
      obtain ⟨g', rfl⟩ : ∃ g', g = g' + 1 := ⟨g - 1, by omega⟩
      rw [Config.sizeList_cons] at hle hf hg
      have hs1 := Config.size_pos sub
      have hs2 := Config.sizeList_subcommands_lt sub
      have h1 : validateSubsFuel f' [] sub.subcommands =
          validateSubsFuel g' [] sub.subcommands :=
        ih sub.subcommands (by omega) f' g' [] (by omega) (by omega)
      have h2 : validateSubsFuel f' (sub.name :: seen) rest =
          validateSubsFuel g' (sub.name :: seen) rest :=
        ih rest (by omega) f' g' (sub.name :: seen) (by omega) (by omega)
      simp only [validateSubsFuel, h1, h2]

/-- If the declaration of some direct subcommand fails `validateConfig`, the
subcommand walk fails (with that or an earlier error). -/
theorem validateSubsFuel_error_of_sub (subs : List Config) :
    ∀ (fuel : Nat) (seen : List String), Config.sizeList subs < fuel →
    (∃ sub ∈ subs, ∃ e, validateConfig sub = .error e) →
    ∃ e, validateSubsFuel fuel seen subs = .error e := by
  induction subs with
  | nil =>
    intro fuel seen _ h
    obtain ⟨sub, hmem, _⟩ := h
    cases hmem
  | cons sub rest ih =>
    intro fuel seen hfuel h
    rw [Config.sizeList_cons] at hfuel
    have hs1 := Config.size_pos sub
    have hs2 := Config.sizeList_subcommands_lt sub
    obtain ⟨f', rfl⟩ : ∃ f', fuel = f' + 1 := ⟨fuel - 1, by omega⟩
    by_cases hname : sub.name = ""
    · exact ⟨"Subcommand name is required",
        by simp [validateSubsFuel, hname, throw_eq, error_bind]⟩
    · by_cases hdup : sub.name ∈ seen
      · exact ⟨"Duplicate subcommand name \"" ++ sub.name ++ "\"",
          by simp [validateSubsFuel, hname, hdup, throw_eq, error_bind, ok_bind]⟩
      · rcases hown : validateOwn sub with e | u
        · exact ⟨e, by simp [validateSubsFuel, hname, hdup, hown, throw_eq, error_bind, ok_bind]⟩
        · obtain ⟨sub', hmem', e', he'⟩ := h
          rcases List.mem_cons.mp hmem' with rfl | hmem''
          · have hsub : validateSubsFuel sub'.size [] sub'.subcommands = .error e' := by
              simpa [validateConfig, hown, ok_bind] using he'
            have hstab : validateSubsFuel f' [] sub'.subcommands =
                validateSubsFuel sub'.size [] sub'.subcommands :=
              validateSubsFuel_stable sub'.size sub'.subcommands (by omega) f' sub'.size []
                (by omega) (by omega)
            exact ⟨e', by
              simp [validateSubsFuel, hname, hdup, hown, hstab, hsub, throw_eq,
                error_bind, ok_bind]⟩
          · rcases hrec : validateSubsFuel f' [] sub.subcommands with e'' | u''
            · exact ⟨e'', by
                simp [validateSubsFuel, hname, hdup, hown, hrec, throw_eq, error_bind, ok_bind]⟩
            · obtain ⟨e'', he''⟩ := ih f' (sub.name :: seen) (by omega) ⟨sub', hmem'', e', he'⟩
              exact ⟨e'', by
                simp [validateSubsFuel, hname, hdup, hown, hrec, he'', throw_eq,
                  error_bind, ok_bind]⟩

/-- If some direct subcommand is invalid, `validateConfig` for the
whole level fails. -/
theorem validateConfig_error_of_sub (c : Config) (sub : Config)
    (hmem : sub ∈ c.subcommands) (he : ∃ e, validateConfig sub = .error e) :
    ∃ e, validateConfig c = .error e := by
  rcases hown : validateOwn c with e | u
  · exact ⟨e, by simp [validateConfig, hown, error_bind]⟩
  · obtain ⟨e, hrun⟩ :=
      validateSubsFuel_error_of_sub c.subcommands c.size []
        (Config.sizeList_subcommands_lt c) ⟨sub, hmem, he⟩
    exact ⟨e, by simp [validateConfig, hown, hrun, ok_bind]⟩

/-- A successful option match consumes at least one token. -/
theorem parseCommandOption_consumed_pos (token : String) (tokens : List String)
    (config : Config) (p : ParsedOption)
    (h : parseCommandOption token tokens config = .ok p) : 1 ≤ p.consumed := by
  simp only [parseCommandOption] at h
  rcases hf : config.options.find? (optionMatches (kebabToCamelCase token)) with _ | o <;>
    rw [hf] at h
  · exact absurd h (by simp)
  · cases hk : o.kind <;> simp only [hk] at h <;> split at h <;>
      first
        | (injection h
           done)
        | (rename_i heq
           injection h with h2
           subst h2
           split at heq <;> simp_all)

/-- A successful positional match on a token that is neither an option
nor a subcommand consumes at least one token. -/
theorem parseCommandArgument_consumed_pos (t : String) (rest : List String)
    (config : Config) (argIndex : Nat) (p : ParsedArgument)
    (hopt : isOption t = false) (hsub : isSubcommand t config.subcommands = false)
    (h : parseCommandArgument (t :: rest) config argIndex = .ok p) : 1 ≤ p.consumed := by
  simp only [parseCommandArgument] at h
  rcases hf : config.arguments.get? argIndex with _ | aDef <;> rw [hf] at h
  · exact absurd h (by simp)
  · cases hk : aDef.kind <;> simp only [hk] at h
    · injection h with h2
      subst h2
      simp
    · have hvar : handlerVariadic (t :: rest) config.subcommands =
          t :: handlerVariadic rest config.subcommands := by
        simp [handlerVariadic, hopt, hsub]
      rw [hvar] at h
      injection h with h2
      subst h2
      simp

/-- The scan on an exhausted token list is complete whatever the fuel. -/
theorem scanFuel_nil (config : Config) (f argIndex : Nat) (input : ParseInput) :
    scanFuel config f [] argIndex input = .done input := by
  cases f <;> rfl

/-- Any fuel at least the number of remaining tokens gives the same scan
result: each loop iteration consumes at least one token. -/
theorem scanFuel_stable (n : Nat) : ∀ (tokens : List String), tokens.length ≤ n →
    ∀ (config : Config) (f g argIndex : Nat) (input : ParseInput),
    tokens.length ≤ f → tokens.length ≤ g →
    scanFuel config f tokens argIndex input = scanFuel config g tokens argIndex input := by
  induction n with
  | zero =>
    intro tokens hle config f g argIndex input hf hg
    have h0 : tokens = [] := List.length_eq_zero.mp (by omega)
    subst h0
    rw [scanFuel_nil, scanFuel_nil]
  | succ n ih =>
    intro tokens hle config f g argIndex input hf hg
    cases tokens with
    | nil => rw [scanFuel_nil, scanFuel_nil]
    | cons t rest =>
      simp only [List.length_cons] at hle hf hg
      obtain ⟨f', rfl⟩ : ∃ f', f = f' + 1 := ⟨f - 1, by omega⟩
      obtain ⟨g', rfl⟩ : ∃ g', g = g' + 1 := ⟨g - 1, by omega⟩
      simp only [scanFuel]
      by_cases h1 : (t == "--") = true
      · simp only [h1, if_true]
      · simp only [eq_false_of_ne_true h1, Bool.false_eq_true, if_false]
        by_cases h2 : isOption t = true
        · simp only [h2, if_true]
          rcases hp : parseCommandOption t (t :: rest) config with e | p
          · rfl
          · have hcons := parseCommandOption_consumed_pos t (t :: rest) config p hp
            have hlen : ((t :: rest).drop p.consumed).length ≤ n := by
              rw [List.length_drop]
              simp only [List.length_cons]
              omega
            simp only []
            split
            · rfl
            · split
              · rfl
              · exact ih _ hlen config f' g' argIndex _ (by rw [List.length_drop]; simp; omega)
                  (by rw [List.length_drop]; simp; omega)
        · simp only [eq_false_of_ne_true h2, Bool.false_eq_true, if_false]
          by_cases h3 : isSubcommand t config.subcommands = true
          · simp only [h3, if_true]
          · simp only [eq_false_of_ne_true h3, Bool.false_eq_true, if_false]
            rcases hp : parseCommandArgument (t :: rest) config argIndex with e | p
            · rfl
            · have hcons := parseCommandArgument_consumed_pos t rest config argIndex p
                (eq_false_of_ne_true h2) (eq_false_of_ne_true h3) hp
              have hlen : ((t :: rest).drop p.consumed).length ≤ n := by
                rw [List.length_drop]
                simp only [List.length_cons]
                omega
              exact ih _ hlen config f' g' (argIndex + 1) _
                (by rw [List.length_drop]; simp; omega)
                (by rw [List.length_drop]; simp; omega)

/-- With fuel at least the number of remaining tokens, the scan never
hits the fuel bound. -/
theorem scanFuel_not_stuck (n : Nat) : ∀ (tokens : List String), tokens.length ≤ n →
    ∀ (config : Config) (f argIndex : Nat) (input : ParseInput), tokens.length ≤ f →
    (scanFuel config f tokens argIndex input).isStuck = false := by
  induction n with
  | zero =>
    intro tokens hle config f argIndex input hf
    have h0 : tokens = [] := List.length_eq_zero.mp (by omega)
    subst h0
    rw [scanFuel_nil]
    rfl
  | succ n ih =>
    intro tokens hle config f argIndex input hf
    cases tokens with
    | nil =>
      rw [scanFuel_nil]
      rfl
    | cons t rest =>
      simp only [List.length_cons] at hle hf
      obtain ⟨f', rfl⟩ : ∃ f', f = f' + 1 := ⟨f - 1, by omega⟩
      simp only [scanFuel]
      by_cases h1 : (t == "--") = true
      · simp [h1, ScanOutcome.isStuck]
      · simp only [eq_false_of_ne_true h1, Bool.false_eq_true, if_false]
        by_cases h2 : isOption t = true
        · simp only [h2, if_true]
          rcases hp : parseCommandOption t (t :: rest) config with e | p
          · rfl
          · have hcons := parseCommandOption_consumed_pos t (t :: rest) config p hp
            simp only []
            split
            · rfl
            · split
              · rfl
              · exact ih _ (by rw [List.length_drop]; simp; omega) config f' argIndex _
                  (by rw [List.length_drop]; simp; omega)
        · simp only [eq_false_of_ne_true h2, Bool.false_eq_true, if_false]
          by_cases h3 : isSubcommand t config.subcommands = true
          · simp [h3, ScanOutcome.isStuck]
          · simp only [eq_false_of_ne_true h3, Bool.false_eq_true, if_false]
            rcases hp : parseCommandArgument (t :: rest) config argIndex with e | p
            · rfl
            · have hcons := parseCommandArgument_consumed_pos t rest config argIndex p
                (eq_false_of_ne_true h2) (eq_false_of_ne_true h3) hp
              exact ih _ (by rw [List.length_drop]; simp; omega) config f' (argIndex + 1) _
                (by rw [List.length_drop]; simp; omega)

theorem dropWhile_eq_self_of_all (p : Char → Bool) (l : List Char)
    (h : ∀ c ∈ l, p c = false) : l.dropWhile p = l := by
  cases l with
  | nil => rfl
  | cons c rest => simp [List.dropWhile, h c (List.mem_cons_self c rest)]

theorem jsTrim_eq_self (l : List Char) (h : ∀ c ∈ l, c.isWhitespace = false) :
    jsTrim l = l := by
  unfold jsTrim
  rw [dropWhile_eq_self_of_all _ _ h,
    dropWhile_eq_self_of_all _ _ fun c hc => h c (List.mem_reverse.mp hc),
    List.reverse_reverse]

theorem dashToUpper_eq_self (l : List Char) (h : ∀ c ∈ l, (c == '-') = false) :
    dashToUpper l = l := by
  induction l with
  | nil => rfl
  | cons c rest ih =>
    cases rest with
    | nil => rfl
    | cons d rest' =>
      have hc := h c (List.mem_cons_self _ _)
      simp only [dashToUpper, hc, Bool.false_eq_true, if_false]
      rw [ih fun x hx => h x (List.mem_cons_of_mem _ hx)]

theorem isPrefixOf_append_self (n t : List Char) : n.isPrefixOf (n ++ t) = true := by
  induction n with
  | nil => simp [List.isPrefixOf]
  | cons a n' ih => simp [List.isPrefixOf, ih]

theorem includesAux_of_isPrefixOf (n l : List Char) (h : n.isPrefixOf l = true) :
    includesAux n l = true := by
  cases l with
  | nil =>
    cases n with
    | nil => rfl
    | cons a n' => simp [List.isPrefixOf] at h
  | cons c r => simp [includesAux, h]

theorem jsSplit_no_sep (sep : Char) (l : List Char) (h : l.contains sep = false) :
    jsSplit sep l = [l] := by
  induction l with
  | nil => rfl
  | cons c rest ih =>
    rw [List.contains_cons] at h
    simp only [Bool.or_eq_false_iff] at h
    have hcs : ¬c = sep := by
      intro hh
      subst hh
      simp at h
    simp [jsSplit, hcs, ih h.2]

theorem jsSplit_append (sep : Char) (l1 l2 : List Char) (h : l1.contains sep = false) :
    jsSplit sep (l1 ++ sep :: l2) = l1 :: jsSplit sep l2 := by
  induction l1 with
  | nil => simp [jsSplit]
  | cons c rest ih =>
    rw [List.contains_cons] at h
    simp only [Bool.or_eq_false_iff] at h
    have hcs : ¬c = sep := by
      intro hh
      subst hh
      simp at h
    have hrec := ih h.2
    simp only [List.cons_append, jsSplit, hcs, hrec]
    cases hs : jsSplit sep l2 <;> simp [hrec, hs, hcs]

theorem flagOk_ne_empty (lf : String) (h : flagOk lf = true) : lf ≠ "" := by
  intro hcontra
  subst hcontra
  simp [flagOk] at h

theorem nameOk_ne_empty (an : String) (h : nameOk an = true) : an ≠ "" := by
  intro hcontra
  subst hcontra
  simp [nameOk] at h

/-! ## Claims -/

/-- C1 counterexample: parsing a token list whose last token is the flag
of a `value`-kind option does NOT fail with an "unexpected option"
error; the parse succeeds and the result maps the option key to the
JavaScript `undefined` value. -/
theorem c1_counterexample :
    parseRuntime valueOptCfg ["--out"] =
      .ok ⟨[], [("out", Value.undef)], []⟩ := by
  decide

/-- C1 (amended): when a `value`-kind option flag is the last token, the
matcher raises no error: `tokens[index + 1]` is `undefined`, which is
not `null`, so the option key is mapped to the undefined value with two
tokens consumed; the option is then treated as absent by the post-scan
validator, which raises a required-field error when it is not optional
(witnessed concretely on `valueOptReqCfg`). -/
theorem c1_amended :
    (∀ (config : Config) (token : String) (o : Opt),
      config.options.find? (optionMatches (kebabToCamelCase token)) = some o →
      o.kind = .value → isFlag token = true →
      parseCommandOption token [token] config =
        .ok ⟨[(kebabToCamelCase o.longFlag, .undef)], 2⟩)
    ∧ parseRuntime valueOptReqCfg ["--out"] =
        .error ("Required option \"--out\" is missing") := by
  constructor
  · intro config token o hfind hkind hflag
    simp only [parseCommandOption, hfind, hkind, hflag, if_true]
    rw [List.indexOf_cons_self]
    rfl
  · decide

/-- C1 witness: the amended claim evaluated on a concrete declaration
with one optional `value` option `--out`. -/
theorem c1_witness :
    parseCommandOption ("--out") ["--out"] valueOptCfg =
      .ok ⟨[("out", Value.undef)], 2⟩ :=
  c1_amended.1 valueOptCfg ("--out") ⟨"--out", .value, none, none, none, true⟩
    (by decide) rfl rfl

/-- C2: for every valid declaration whose matcher resolves `--help` to a
declared `flag`-kind option and whose help feature is not hidden,
parsing `["--help"]` short-circuits: the scan stops at the help token
and returns the partial result, and the post-scan validator (required /
default / choices checks) never runs — the conclusion holds with empty
`args` whatever required fields the declaration has. -/
theorem c2_theorem (config : Config) (o : Opt)
    (hvalid : validateConfig config = .ok ())
    (hhidden : config.hiddenHelp = false)
    (hfind : config.options.find? (optionMatches (kebabToCamelCase "--help")) = some o)
    (hkind : o.kind = .flag) :
    parseRuntime config ["--help"] =
      .ok ⟨[], [(kebabToCamelCase o.longFlag, .bool true)], []⟩ := by
  have hopt : parseCommandOption ("--help") ["--help"] config =
      .ok ⟨[(kebabToCamelCase o.longFlag, .bool true)], 1⟩ := by
    simp only [parseCommandOption, hfind, hkind]
    rfl
  have hscan : scanFuel config 1 ["--help"] 0 ⟨[], [], []⟩ =
      .short ⟨[], [(kebabToCamelCase o.longFlag, .bool true)], []⟩ := by
    simp only [scanFuel]
    rw [show (("--help" : String) == "--") = false from rfl]
    simp only [Bool.false_eq_true, if_false]
    rw [show isOption ("--help") = true from rfl]
    simp only [if_true, hopt]
    rw [show (("--help" : String) == "--version") = false from rfl,
      show (("--help" : String) == "-v") = false from rfl,
      show (("--help" : String) == "--help") = true from rfl,
      hhidden]
    simp [assignAll, setKey]
  simp only [parseRuntime, hvalid]
  rw [show (["--help"] : List String).length = 1 from rfl, hscan]

/-- C2 witness: `helpCfg` declares a required `--name` option that the
token list omits, yet parsing `["--help"]` succeeds with the partial
result. -/
theorem c2_witness :
    parseRuntime helpCfg ["--help"] = .ok ⟨[], [("help", Value.bool true)], []⟩ :=
  c2_theorem helpCfg ⟨"--help", .flag, some "-h", none, none, true⟩
    (by decide) rfl (by decide) rfl

/-- C3 counterexample: a declaration whose only option is a required
`flag`-kind option parses the empty token list successfully — the
post-scan required check skips `flag`-kind options entirely, so no
required-field error is raised. -/
theorem c3_counterexample :
    parseRuntime flagReqCfg [] = .ok ⟨[], [], []⟩ := by
  decide

/-- C3 (amended): required enforcement applies to options of kind
`value`/`inline`/`variadic` and to positional arguments, but not to
`flag`-kind options.  If the declaration has such a non-optional,
default-less field, the result keys are pairwise distinct, and the scan
neither short-circuits on help/version nor produces a truthy value for
that field, then the parse fails. -/
theorem c3_amended (config : Config) (tokens : List String)
    (hshort : (scanFuel config tokens.length tokens 0 ⟨[], [], []⟩).isShort = false)
    (htarget :
      (∃ o ∈ config.options,
        (o.kind = .value ∨ o.kind = .inline ∨ o.kind = .variadic) ∧
        o.optional = false ∧ o.default = none ∧
        (config.options.map fun o' => kebabToCamelCase o'.longFlag).Nodup ∧
        ((scanFuel config tokens.length tokens 0 ⟨[], [], []⟩).doneInput.all
          fun inp => !truthyLookup inp.options (kebabToCamelCase o.longFlag)) = true) ∨
      (∃ a ∈ config.arguments,
        a.optional = false ∧ a.default = none ∧
        (config.arguments.map fun a' => kebabToCamelCase a'.name).Nodup ∧
        ((scanFuel config tokens.length tokens 0 ⟨[], [], []⟩).doneInput.all
          fun inp => !truthyLookup inp.args (kebabToCamelCase a.name)) = true)) :
    ∃ e, parseRuntime config tokens = .error e := by
  rcases hval : validateConfig config with e | u
  · exact ⟨e, by simp [parseRuntime, hval]⟩
  · rcases hscan : scanFuel config tokens.length tokens 0 ⟨[], [], []⟩ with e | inp | inp | _
    · exact ⟨e, by simp [parseRuntime, hval, hscan]⟩
    · rw [hscan] at hshort
      simp [ScanOutcome.isShort] at hshort
    · rcases htarget with ⟨o, hmem, hkind, hopt, _, hnodup, hall⟩ |
        ⟨a, hmem, hopt, _, hnodup, hall⟩
      · rw [hscan] at hall
        simp only [ScanOutcome.doneInput, Option.all_some, Bool.not_eq_true'] at hall
        obtain ⟨e, he⟩ :=
          postScanOptions_required_error config.options inp o hmem hkind hopt hnodup hall
        exact ⟨e, by simp [parseRuntime, hval, hscan, he]⟩
      · rw [hscan] at hall
        simp only [ScanOutcome.doneInput, Option.all_some, Bool.not_eq_true'] at hall
        rcases hpo : postScanOptions config.options inp with e | inp1
        · exact ⟨e, by simp [parseRuntime, hval, hscan, hpo]⟩
        · have hargs := (postScanOptions_preserves _ _ _ hpo).1
          have hfalsy1 : truthyLookup inp1.args (kebabToCamelCase a.name) = false := by
            rw [hargs]
            exact hall
          obtain ⟨e, he⟩ :=
            postScanArgs_required_error config.arguments inp1 a hmem hopt hnodup hfalsy1
          exact ⟨e, by simp [parseRuntime, hval, hscan, hpo, he]⟩
    · exact ⟨"parse loop fuel exhausted", by simp [parseRuntime, hval, hscan]⟩

/-- C3 witness: the amended claim evaluated on a declaration with one
required `value` option `--out` and the empty token list. -/
theorem c3_witness : ∃ e, parseRuntime valueOptReqCfg [] = .error e :=
  c3_amended valueOptReqCfg [] (by decide)
    (Or.inl ⟨⟨"--out", .value, none, none, none, false⟩, by decide, Or.inl rfl, rfl, rfl,
      by decide, by decide⟩)

/-- C4 counterexample: parsing the root with the empty token list —
tokens that never reach the subcommand — fails, because `validateConfig`
recursively validates every subcommand declaration up front, and the
subcommand here declares two arguments named `x`. -/
theorem c4_counterexample :
    parseRuntime rootBadSubCfg [] = .error ("Duplicate argument name \"x\"") := by
  decide

/-- C4 (amended): declaration validation is eager, not lazy — the
validator recurses into every subcommand, so whenever any direct
subcommand has an invalid declaration, parsing the parent fails for
every token list, including ones that never reach that subcommand. -/
theorem c4_amended (config : Config) (tokens : List String) (sub : Config)
    (hmem : sub ∈ config.subcommands) (he : ∃ e, validateConfig sub = .error e) :
    ∃ e, parseRuntime config tokens = .error e := by
  obtain ⟨e, hve⟩ := validateConfig_error_of_sub config sub hmem he
  exact ⟨e, by simp [parseRuntime, hve]⟩

/-- C4 witness: the amended claim evaluated on `rootBadSubCfg`. -/
theorem c4_witness : ∃ e, parseRuntime rootBadSubCfg [] = .error e :=
  c4_amended rootBadSubCfg [] badSubCfg (List.mem_singleton.mpr rfl)
    ⟨"Duplicate argument name \"x\"", by decide⟩

/-- C5 counterexample: the inline value is NOT taken verbatim from the
original token — the whole token is first normalized by
`kebabToCamelCase`, so hyphens inside the value are camel-cased:
`--output=dist-dir` parses to `distDir`, not `dist-dir`. -/
theorem c5_counterexample :
    parseCommandOption ("--output=dist-dir") ["--output=dist-dir"] inlineCfg =
      .ok ⟨[("output", Value.str "distDir")], 1⟩ := by
  decide

/-- C5 (amended): for an inline option the value is the substring of the
kebab-normalized token between the first and second `=`; it equals the
raw substring after `=` only when that substring contains no hyphen, no
further `=`, and no surrounding whitespace.  Under those conditions
exactly one token is consumed, and the spec example
`--output=dist/ ↦ { output: "dist/" }` holds through the full parse. -/
theorem c5_amended :
    (∀ v : String,
      v.toList.all (fun c => !(c == '-') && !(c == '=') && !c.isWhitespace) = true →
      parseCommandOption ("--output=" ++ v) [("--output=" ++ v)] inlineCfg =
        .ok ⟨[("output", .str v)], 1⟩)
    ∧ parseRuntime inlineCfg ["--output=dist/"] =
        .ok ⟨[], [("output", Value.str "dist/")], []⟩ := by
  constructor
  · intro v hv
    have hvl : ∀ c ∈ v.toList,
        (c == '-') = false ∧ (c == '=') = false ∧ c.isWhitespace = false := by
      intro c hc
      have h1 := List.all_eq_true.mp hv c hc
      simp only [Bool.and_eq_true, Bool.not_eq_true'] at h1
      exact ⟨h1.1.1, h1.1.2, h1.2⟩
    have htl : ("--output=" ++ v).toList = ("--output=").toList ++ v.toList := by
      simp [String.toList, String.data_append]
    have hkb : kebabToCamelCase ("--output=" ++ v) =
        String.mk (("output=").toList ++ v.toList) := by
      unfold kebabToCamelCase
      rw [htl]
      have hws : ∀ c ∈ ("--output=").toList ++ v.toList, c.isWhitespace = false := by
        intro c hc
        rcases List.mem_append.mp hc with h | h
        · exact (by decide : ∀ x ∈ ("--output=").toList, x.isWhitespace = false) c h
        · exact (hvl c h).2.2
      rw [jsTrim_eq_self _ hws]
      rw [show (("--output=").toList ++ v.toList).dropWhile (· == '-') =
        ("output=").toList ++ v.toList from rfl]
      rw [dashToUpper_eq_self _ (by
        intro c hc
        rcases List.mem_append.mp hc with h | h
        · exact (by decide : ∀ x ∈ ("output=").toList, (x == '-') = false) c h
        · exact (hvl c h).1)]
      rw [List.filter_eq_self.mpr (by
        intro c hc
        rcases List.mem_append.mp hc with h | h
        · exact (by decide : ∀ x ∈ ("output=").toList, (x != '-') = true) c h
        · simp [bne_iff_ne]
          intro hcontra
          subst hcontra
          exact absurd (hvl _ h).1 (by simp))]
    have hne : (kebabToCamelCase ("--output") == kebabToCamelCase ("--output=" ++ v)) =
        false := by
      rw [hkb]
      refine beq_false_of_ne ?_
      intro hcontra
      have hdata := congrArg String.data hcontra
      have hlen := congrArg List.length hdata
      have h6 : (kebabToCamelCase ("--output")).data.length = 6 := rfl
      have h7 : (("output=").toList).length = 7 := rfl
      rw [h6] at hlen
      have h8 : ({ data := ("output=").toList ++ v.toList } : String).data =
          ("output=").toList ++ v.toList := rfl
      rw [h8, List.length_append, h7] at hlen
      omega
    have hinc : strIncludes (kebabToCamelCase ("--output=" ++ v))
        (kebabToCamelCase ("--output") ++ "=") = true := by
      rw [hkb]
      exact includesAux_of_isPrefixOf _ _
        (isPrefixOf_append_self (("output=").toList) v.toList)
    have hmatch : optionMatches (kebabToCamelCase ("--output=" ++ v)) outputOpt = true := by
      simp [optionMatches, outputOpt, hne, hinc]
    have hfind : inlineCfg.options.find?
        (optionMatches (kebabToCamelCase ("--output=" ++ v))) = some outputOpt := by
      show List.find? _ [outputOpt] = some outputOpt
      rw [List.find?]
      rw [hmatch]
    have hio : isInlineOption (kebabToCamelCase ("--output=" ++ v)) = true := by
      rw [hkb]
      rfl
    have hnosep : v.toList.contains '=' = false := by
      cases hcontains : v.toList.contains '=' with
      | false => rfl
      | true =>
        have hm : '=' ∈ v.toList := by
          simpa [List.contains_iff_exists_mem_beq] using hcontains
        exact absurd ((hvl _ hm).2.1) (by simp)
    have hsplit : (jsSplit '=' (kebabToCamelCase ("--output=" ++ v)).toList).get? 1 =
        some v.toList := by
      rw [hkb]
      show (jsSplit '=' (("output").toList ++ '=' :: v.toList)).get? 1 = some v.toList
      rw [jsSplit_append '=' _ _ (by decide), jsSplit_no_sep '=' v.toList hnosep]
      rfl
    simp only [parseCommandOption, hfind, hio, if_true, hsplit]
    rfl
  · decide

/-- C5 witness: the amended claim evaluated at the spec example value
`dist/`. -/
theorem c5_witness :
    parseCommandOption ("--output=" ++ "dist/") [("--output=" ++ "dist/")] inlineCfg =
      .ok ⟨[("output", Value.str "dist/")], 1⟩ :=
  c5_amended.1 ("dist/") (by decide)

/-- C6 counterexample: the validator ACCEPTS a declaration whose default
list `["a", "x"]` has the element `x` outside `choices = ["a", "b"]` —
the source checks `choices.some(...)`, i.e. it only requires at least
one default element to be a declared choice, not all of them. -/
theorem c6_counterexample :
    validateArguments [⟨"x", .variadic, some (.list ["a", "x"]), some ["a", "b"], true⟩] =
      .ok () := by
  decide

/-- C6 (amended): for a declaration with both `choices` and a (truthy,
list-valued) `default`, the validator accepts iff at least one element
of the default is a member of `choices` (equivalently, rejects only
when the default and the choices are disjoint); this holds for both
argument and option declarations. -/
theorem c6_amended (an lf : String) (cs ds : List String)
    (hn : nameOk an = true) (hf : flagOk lf = true) :
    (validateArguments [⟨an, .variadic, some (.list ds), some cs, true⟩] = .ok ()
      ↔ (cs.any fun c => ds.contains c) = true)
    ∧ (validateOptions [⟨lf, .variadic, none, some (.list ds), some cs, true⟩] = .ok ()
      ↔ (cs.any fun c => ds.contains c) = true) := by
  have hne := nameOk_ne_empty an hn
  have hlf := flagOk_ne_empty lf hf
  by_cases hany : (cs.any fun c => ds.contains c) = true
  · have hnotP : ¬∀ x ∈ cs, x ∉ ((DefVal.list ds).values) := by
      push_neg
      simpa using hany
    constructor
    · simp [validateArguments, validateArgumentsGo, hne, checkNameFormat, hn,
        checkChoicesDefault, DefVal.truthy, throw_eq, error_bind, ok_bind,
        defTruthy, isArrayDefault, hnotP, hany]
      simpa using hany
    · simp [validateOptions, validateOptionsGo, hlf, validateOptionFormat, hf,
        checkChoicesDefault, DefVal.truthy, throw_eq, error_bind, ok_bind,
        defTruthy, hnotP, hany]
      simpa using hany
  · have hany' := eq_false_of_ne_true hany
    have hP : ∀ x ∈ cs, x ∉ ((DefVal.list ds).values) := by simpa using hany'
    constructor
    · simp [validateArguments, validateArgumentsGo, hne, checkNameFormat, hn,
        checkChoicesDefault, DefVal.truthy, throw_eq, error_bind, ok_bind,
        defTruthy, isArrayDefault, hany']
      split
      · simp [error_bind]
        exact hP
      · rename_i hcond
        exact absurd hP hcond
    · simp [validateOptions, validateOptionsGo, hlf, validateOptionFormat, hf,
        checkChoicesDefault, DefVal.truthy, throw_eq, error_bind, ok_bind,
        defTruthy, hany']
      split
      · simp [error_bind]
        exact hP
      · rename_i hcond
        exact absurd hP hcond

/-- C6 witness: the amended claim evaluated on a declaration whose
default list shares the element `a` with its choices. -/
theorem c6_witness :
    (validateArguments [⟨"x", .variadic, some (.list ["a"]), some ["a"], true⟩] = .ok ()
      ↔ ((["a"] : List String).any fun c => (["a"] : List String).contains c) = true)
    ∧ (validateOptions [⟨"--x", .variadic, none, some (.list ["a"]), some ["a"], true⟩] = .ok ()
      ↔ ((["a"] : List String).any fun c => (["a"] : List String).contains c) = true) :=
  c6_amended ("x") ("--x") ["a"] ["a"] (by decide) (by decide)

/-- C7: the variadic collector is exactly `takeWhile` of tokens that are
neither option-shaped nor subcommand names — it stops at, and does not
consume, the first such token; concretely, on `variadicCfg` the tokens
`["build", "push"]` (with `push` a declared subcommand) collect only
`["build"]` for the variadic argument and leave `["push"]` unparsed. -/
theorem c7_theorem :
    (∀ (tokens : List String) (subs : List Config),
      handlerVariadic tokens subs =
        tokens.takeWhile fun t => !(isSubcommand t subs || isOption t))
    ∧ parseRuntime variadicCfg ["build", "push"] =
        .ok ⟨[("files", Value.list ["build"])], [], ["push"]⟩ := by
  constructor
  · intro tokens subs
    induction tokens with
    | nil => rfl
    | cons t rest ih =>
      simp only [handlerVariadic, List.takeWhile]
      cases hstop : isSubcommand t subs || isOption t <;> simp [hstop, ih]
  · decide

/-- C8 counterexample: the runner keeps a module-level accumulator
shared across invocations.  Running the dispatch runner twice from a
fresh module, both times with the same declaration (`runnerCfg`) and the
same tokens, passes the root handler different inputs: in the second run
it observes the `m` key deposited by the first run at the subcommand
level, so the handler-call lists of the two runs differ. -/
theorem c8_counterexample :
    runnerFuel 2 initialModuleState runnerCfg runnerTokens = .ok (runnerState1, runnerCalls1)
    ∧ runnerFuel 2 runnerState1 runnerCfg runnerTokens = .ok (runnerState2, runnerCalls2)
    ∧ runnerCalls1 ≠ runnerCalls2 :=
  ⟨by decide, by decide, by decide⟩

/-- C8 (amended): independent invocations share the module-level
`input`/`commandNames` state, so the first run of a declaration can
differ from later identical runs (see the counterexample); the shared
`input` object reaches a fixpoint after one run, so from the second
identical invocation on the handler inputs repeat exactly and the
`input` portion of the module state no longer changes (only
`commandNames` keeps growing). -/
theorem c8_amended :
    runnerFuel 2 runnerState2 runnerCfg runnerTokens = .ok (runnerState3, runnerCalls2)
    ∧ runnerState3.input = runnerState2.input
    ∧ runnerState2.input = runnerState1.input :=
  ⟨by decide, by decide, by decide⟩

/-- C9 counterexample: an optional `value` option whose declared default
is the empty string — parsing the empty token list succeeds but its key
is absent from the result: the source applies a default only when
`option.default` is truthy, and the empty string is falsy. -/
theorem c9_counterexample :
    parseRuntime emptyDefaultCfg [] = .ok ⟨[], [], []⟩ := by
  decide

/-- C9 (amended): when every non-`flag` option and every argument is
optional with a TRUTHY default (non-empty string or any list), and the
result keys are pairwise distinct, parsing the empty token list succeeds
and maps every such field to exactly its declared default; an
empty-string default is not substituted (see the counterexample). -/
theorem c9_amended (config : Config)
    (hvalid : validateConfig config = .ok ())
    (hopts : ∀ o ∈ config.options, o.kind ≠ .flag →
      o.optional = true ∧ defTruthy o.default = true)
    (hargs : ∀ a ∈ config.arguments, a.optional = true ∧ defTruthy a.default = true)
    (hko : ((config.options.filter fun o => o.kind != .flag).map
      fun o => kebabToCamelCase o.longFlag).Nodup)
    (hka : (config.arguments.map fun a => kebabToCamelCase a.name).Nodup) :
    ∃ r, parseRuntime config [] = .ok r ∧
      (∀ o ∈ config.options, o.kind ≠ .flag → ∃ d, o.default = some d ∧
        r.options.lookup (kebabToCamelCase o.longFlag) = some d.toValue) ∧
      (∀ a ∈ config.arguments, ∃ d, a.default = some d ∧
        r.args.lookup (kebabToCamelCase a.name) = some d.toValue) := by
  obtain ⟨out, hrun, hargs0, _, hkeys, _⟩ :=
    postScanOptions_defaults config.options ⟨[], [], []⟩ hopts hko (fun o _ _ => rfl)
  obtain ⟨r, hrun2, hropts, _, hkeys2, _⟩ :=
    postScanArgs_defaults config.arguments out hargs hka
      (by intro a h; rw [hargs0]; rfl)
  refine ⟨r, ?_, ?_, hkeys2⟩
  · have hscan : scanFuel config ([] : List String).length [] 0 ⟨[], [], []⟩ =
        .done ⟨[], [], []⟩ := rfl
    simp only [parseRuntime, hvalid, hscan, hrun, hrun2]
  · intro o h hnf
    obtain ⟨d, hd, hl⟩ := hkeys o h hnf
    exact ⟨d, hd, by rw [hropts]; exact hl⟩

/-- C9 witness: the amended claim evaluated on `defaultsCfg`, whose
fields all carry truthy defaults. -/
theorem c9_witness :
    ∃ r, parseRuntime defaultsCfg [] = .ok r ∧
      (∀ o ∈ defaultsCfg.options, o.kind ≠ .flag → ∃ d, o.default = some d ∧
        r.options.lookup (kebabToCamelCase o.longFlag) = some d.toValue) ∧
      (∀ a ∈ defaultsCfg.arguments, ∃ d, a.default = some d ∧
        r.args.lookup (kebabToCamelCase a.name) = some d.toValue) :=
  c9_amended defaultsCfg (by decide) (by decide) (by decide) (by decide) (by decide)

/-- C10: the parse loop terminates on every finite token list — adding
any extra fuel beyond `tokens.length` never changes the scan result
(each successful match consumes at least one token), and with exactly
`tokens.length` fuel the scan never reports fuel exhaustion, so
`parseRuntime` is a total function of its inputs up to declared errors. -/
theorem c10_theorem :
    (∀ (config : Config) (tokens : List String) (argIndex : Nat) (input : ParseInput)
      (k : Nat),
      scanFuel config (tokens.length + k) tokens argIndex input =
        scanFuel config tokens.length tokens argIndex input)
    ∧ (∀ (config : Config) (tokens : List String) (argIndex : Nat) (input : ParseInput),
      (scanFuel config tokens.length tokens argIndex input).isStuck = false) :=
  ⟨fun config tokens argIndex input k =>
    scanFuel_stable tokens.length tokens le_rfl config (tokens.length + k) tokens.length
      argIndex input (by omega) le_rfl,
   fun config tokens argIndex input =>
    scanFuel_not_stuck tokens.length tokens le_rfl config tokens.length argIndex input
      le_rfl⟩
